import Mathlib

/-
Verification of the compact transaction-output codec of src/src/compressor.h:
amount compression, script compression, and the bounds-safe decode path.

Scripts and byte streams are modelled as lists of natural numbers (one entry
per byte); machine integers are modelled as unbounded naturals, with 64-bit
bounds stated explicitly where a claim depends on them.  The elliptic-curve
point-decompression primitive and the public-key validity check are external
collaborators and are taken as parameters.
-/

set_option maxRecDepth 4000

namespace MVC

/-- Modelled from the spec: standard script opcode byte values (the opcode
enumeration lives outside src; these are the standard wire values). -/
def OP_FALSE : Nat := 0x00

def OP_RETURN : Nat := 0x6a

def OP_DUP : Nat := 0x76

def OP_HASH160 : Nat := 0xa9

def OP_EQUAL : Nat := 0x87

def OP_EQUALVERIFY : Nat := 0x88

def OP_CHECKSIG : Nat := 0xac

/-- Modelled from the spec: the trailing-decimal-zero stripping loop of
CompressAmount (spec 4.1): strip trailing zero digits from `x`, counting them
in `e`, and stop once `e` reaches 9.  The first argument is fuel;
`CompressAmount` calls it with fuel 9, which the guard `e < 9` never lets
run out. -/
def stripZeros : Nat → Nat → Nat → Nat × Nat
  | 0, x, e => (x, e)
  | f + 1, x, e => if x % 10 = 0 ∧ e < 9 then stripZeros f (x / 10) (e + 1) else (x, e)

/-- Modelled from the spec: CTxOutCompressor::CompressAmount (spec 4.1; only
its declaration is in src/src/compressor.h).  Amount 0 maps to 0; otherwise
strip trailing zeros into exponent `e` (capped at 9); if `e < 9` encode the
last digit `d` and the remaining value `n` as `1 + (n*9 + (d-1))*10 + e`,
else encode `1 + (n-1)*10 + 9`. -/
def CompressAmount (a : Nat) : Nat :=
  if a = 0 then 0
  else if (stripZeros 9 a 0).2 < 9 then
    1 + ((stripZeros 9 a 0).1 / 10 * 9 + ((stripZeros 9 a 0).1 % 10 - 1)) * 10
      + (stripZeros 9 a 0).2
  else
    1 + ((stripZeros 9 a 0).1 - 1) * 10 + 9

/-- Modelled from the spec: CTxOutCompressor::DecompressAmount (spec 4.1).
Compressed 0 maps to 0; otherwise subtract 1, split off the exponent via
div/mod 10, rebuild the stripped value, and scale by `10 ^ e`. -/
def DecompressAmount (c : Nat) : Nat :=
  if c = 0 then 0
  else if (c - 1) % 10 < 9 then
    ((c - 1) / 10 / 9 * 10 + ((c - 1) / 10 % 9 + 1)) * 10 ^ ((c - 1) % 10)
  else
    ((c - 1) / 10 + 1) * 10 ^ ((c - 1) % 10)

/-- Invariant of the stripping loop: the result still multiplies back to the
input, the exponent only grows, stays at most 9, and when it stopped below 9
the stripped value has no further trailing zero. -/
theorem stripZeros_spec (f : Nat) :
    ∀ x e, x ≠ 0 → e ≤ 9 → 9 ≤ f + e →
      (stripZeros f x e).1 ≠ 0 ∧
      (stripZeros f x e).1 * 10 ^ ((stripZeros f x e).2 - e) = x ∧
      e ≤ (stripZeros f x e).2 ∧
      (stripZeros f x e).2 ≤ 9 ∧
      ((stripZeros f x e).2 < 9 → (stripZeros f x e).1 % 10 ≠ 0) := by
  induction f with
  | zero =>
    intro x e hx he hf
    have he9 : e = 9 := by omega
    subst he9
    simp [stripZeros, hx]
  | succ f ih =>
    intro x e hx he hf
    by_cases h : x % 10 = 0 ∧ e < 9
    · have hrec : stripZeros (f + 1) x e = stripZeros f (x / 10) (e + 1) := by
        simp only [stripZeros]
        rw [if_pos h]
      have hx10 : x / 10 ≠ 0 := by omega
      obtain ⟨h1, h2, h3, h4, h5⟩ := ih (x / 10) (e + 1) hx10 (by omega) (by omega)
      rw [hrec]
      refine ⟨h1, ?_, by omega, h4, h5⟩
      have hsub : (stripZeros f (x / 10) (e + 1)).2 - e
          = ((stripZeros f (x / 10) (e + 1)).2 - (e + 1)) + 1 := by omega
      rw [hsub, pow_succ, ← mul_assoc, h2]
      omega
    · have hrec : stripZeros (f + 1) x e = (x, e) := by
        simp only [stripZeros]
        rw [if_neg h]
      rw [hrec]
      exact ⟨hx, by simp, le_refl e, he, fun hlt h0 => h ⟨h0, hlt⟩⟩

/-- DecompressAmount undoes CompressAmount on every natural number. -/
theorem DecompressAmount_CompressAmount (a : Nat) :
    DecompressAmount (CompressAmount a) = a := by
  by_cases ha : a = 0
  · subst ha; rfl
  · unfold CompressAmount
    rw [if_neg ha]
    obtain ⟨hx0, hxe, -, he2, hnd⟩ := stripZeros_spec 9 a 0 ha (by omega) (by omega)
    rw [Nat.sub_zero] at hxe
    set p := stripZeros 9 a 0 with hp
    by_cases hel : p.2 < 9
    · rw [if_pos hel]
      have hd1 : 1 ≤ p.1 % 10 := by
        have := hnd hel
        omega
      have hd9 : p.1 % 10 ≤ 9 := by omega
      unfold DecompressAmount
      rw [if_neg (by omega)]
      have h1 : (1 + (p.1 / 10 * 9 + (p.1 % 10 - 1)) * 10 + p.2 - 1) % 10 = p.2 := by
        omega
      have h2 : (1 + (p.1 / 10 * 9 + (p.1 % 10 - 1)) * 10 + p.2 - 1) / 10
          = p.1 / 10 * 9 + (p.1 % 10 - 1) := by
        omega
      rw [h1, h2, if_pos hel]
      have h3 : (p.1 / 10 * 9 + (p.1 % 10 - 1)) / 9 * 10
          + ((p.1 / 10 * 9 + (p.1 % 10 - 1)) % 9 + 1) = p.1 := by
        omega
      rw [h3]
      exact hxe
    · rw [if_neg hel]
      have he9 : p.2 = 9 := by omega
      unfold DecompressAmount
      rw [if_neg (by omega)]
      have h1 : (1 + (p.1 - 1) * 10 + 9 - 1) % 10 = 9 := by omega
      have h2 : (1 + (p.1 - 1) * 10 + 9 - 1) / 10 = p.1 - 1 := by omega
      rw [h1, h2, if_neg (by omega)]
      have h4 : p.1 - 1 + 1 = p.1 := by omega
      rw [h4, ← he9]
      exact hxe

/-- C1: For every non-negative amount representable in 64 bits,
DecompressAmount (CompressAmount a) = a; on that domain CompressAmount is
injective and DecompressAmount inverts it on its image, so the two maps are
mutually inverse bijections between the domain and its compressed image. -/
theorem amount_compression_roundtrip_bijective (a : Nat) (_ha : a < 2 ^ 64) :
    DecompressAmount (CompressAmount a) = a ∧
    (∀ b, b < 2 ^ 64 → CompressAmount b = CompressAmount a → b = a) ∧
    CompressAmount (DecompressAmount (CompressAmount a)) = CompressAmount a := by
  refine ⟨DecompressAmount_CompressAmount a, ?_, ?_⟩
  · intro b _ hba
    have h1 := DecompressAmount_CompressAmount a
    have h2 := DecompressAmount_CompressAmount b
    rw [hba] at h2
    omega
  · rw [DecompressAmount_CompressAmount a]

/-- Witness for C1 at the concrete amount 1230 (one trailing zero). -/
theorem amount_compression_roundtrip_bijective_witness :
    (1230 : Nat) < 2 ^ 64 ∧ DecompressAmount (CompressAmount 1230) = 1230 :=
  ⟨by norm_num, (amount_compression_roundtrip_bijective 1230 (by norm_num)).1⟩

/-- Modelled from the spec: the leading (continuation-marked) bytes of the
variable-length integer collaborator (spec 6; serialize.h is not under src).
The format is the standard node VarInt: big-endian base-128 groups, the high
bit set on every byte but the last, with an off-by-one shift between groups
so the coding is bijective.  The first argument is fuel, always called with
fuel at least the encoded value, which the recursion (`m / 128 - 1 < m`)
never exhausts. -/
def varintFront : Nat → Nat → List Nat
  | 0, m => [m % 128 + 128]
  | f + 1, m => (if 128 ≤ m then varintFront f (m / 128 - 1) else []) ++ [m % 128 + 128]

/-- Modelled from the spec: `write_varint` of the variable-length integer
collaborator (spec 6). -/
def writeVarInt (n : Nat) : List Nat :=
  (if 128 ≤ n then varintFront n (n / 128 - 1) else []) ++ [n % 128]

/-- Modelled from the spec: the accumulator loop of `read_varint` (spec 6). -/
def readVarIntAux : List Nat → Nat → Option (Nat × List Nat)
  | [], _ => none
  | b :: rest, acc =>
    if 128 ≤ b then readVarIntAux rest (acc * 128 + b % 128 + 1)
    else some (acc * 128 + b % 128, rest)

/-- Modelled from the spec: `read_varint` of the variable-length integer
collaborator (spec 6); returns the decoded value and the unread remainder of
the stream, or `none` on stream exhaustion. -/
def readVarInt (input : List Nat) : Option (Nat × List Nat) :=
  readVarIntAux input 0

/-- Reading the continuation-marked bytes of `varintFront m` multiplies the
accumulator by a fixed power of 128 and adds `m + 1`. -/
theorem varintFront_read (f : Nat) :
    ∀ m acc tail, m ≤ f →
      ∃ K, 0 < K ∧
        readVarIntAux (varintFront f m ++ tail) acc = readVarIntAux tail (acc * K + (m + 1)) := by
  induction f with
  | zero =>
    intro m acc tail hm
    have hm0 : m = 0 := by omega
    subst hm0
    exact ⟨128, by norm_num, by simp [varintFront, readVarIntAux]⟩
  | succ f ih =>
    intro m acc tail hm
    by_cases h : 128 ≤ m
    · obtain ⟨K, hK, hread⟩ := ih (m / 128 - 1) acc ((m % 128 + 128) :: tail) (by omega)
      refine ⟨K * 128, by positivity, ?_⟩
      have hshape : varintFront (f + 1) m ++ tail
          = varintFront f (m / 128 - 1) ++ ((m % 128 + 128) :: tail) := by
        simp [varintFront, h]
      rw [hshape, hread]
      have hstep : readVarIntAux ((m % 128 + 128) :: tail) (acc * K + (m / 128 - 1 + 1))
          = readVarIntAux tail ((acc * K + (m / 128 - 1 + 1)) * 128 + (m % 128 + 128) % 128 + 1) := by
        simp [readVarIntAux]
      rw [hstep]
      have harg : (acc * K + (m / 128 - 1 + 1)) * 128 + (m % 128 + 128) % 128 + 1
          = acc * (K * 128) + (m + 1) := by
        rw [← mul_assoc]
        generalize acc * K = A
        omega
      rw [harg]
    · refine ⟨128, by norm_num, ?_⟩
      have hshape : varintFront (f + 1) m ++ tail = (m % 128 + 128) :: tail := by
        simp [varintFront, h]
      rw [hshape]
      have hstep : readVarIntAux ((m % 128 + 128) :: tail) acc
          = readVarIntAux tail (acc * 128 + (m % 128 + 128) % 128 + 1) := by
        simp [readVarIntAux]
      rw [hstep]
      have harg : acc * 128 + (m % 128 + 128) % 128 + 1 = acc * 128 + (m + 1) := by omega
      rw [harg]

/-- The modelled varint reader undoes the modelled varint writer and leaves
the rest of the stream untouched. -/
theorem readVarInt_writeVarInt (n : Nat) (tail : List Nat) :
    readVarInt (writeVarInt n ++ tail) = some (n, tail) := by
  unfold readVarInt writeVarInt
  by_cases h : 128 ≤ n
  · rw [if_pos h]
    obtain ⟨K, hK, hread⟩ := varintFront_read n (n / 128 - 1) 0 ((n % 128) :: tail) (by omega)
    have hshape : (varintFront n (n / 128 - 1) ++ [n % 128]) ++ tail
        = varintFront n (n / 128 - 1) ++ ((n % 128) :: tail) := by
      simp
    rw [hshape, hread]
    have hlast : readVarIntAux ((n % 128) :: tail) (0 * K + (n / 128 - 1 + 1))
        = some ((0 * K + (n / 128 - 1 + 1)) * 128 + (n % 128) % 128, tail) := by
      have hb : ¬ 128 ≤ n % 128 := by omega
      simp [readVarIntAux, hb]
    rw [hlast]
    have hval : (0 * K + (n / 128 - 1 + 1)) * 128 + (n % 128) % 128 = n := by
      rw [Nat.zero_mul]
      omega
    rw [hval]
  · rw [if_neg h]
    have hb : ¬ 128 ≤ n % 128 := by omega
    simp [readVarIntAux, hb]
    omega

/-- Reading a one-byte value below 128 returns that byte directly. -/
theorem readVarInt_single (b : Nat) (rest : List Nat) (hb : b < 128) :
    readVarInt (b :: rest) = some (b, rest) := by
  simp [readVarInt, readVarIntAux, Nat.not_le.mpr hb, Nat.mod_eq_of_lt hb]

/-- A successful varint read consumes at least one byte of the stream. -/
theorem readVarIntAux_length :
    ∀ (l : List Nat) (acc v : Nat) (rest : List Nat),
      readVarIntAux l acc = some (v, rest) → rest.length < l.length := by
  intro l
  induction l with
  | nil => intro acc v rest h; simp [readVarIntAux] at h
  | cons b t ih =>
    intro acc v rest h
    by_cases hb : 128 ≤ b
    · rw [readVarIntAux, if_pos hb] at h
      have := ih _ _ _ h
      simp only [List.length_cons]
      omega
    · rw [readVarIntAux, if_neg hb] at h
      have hrest : rest = t := by
        have := congrArg (fun o => Option.map Prod.snd o) h
        simpa using this.symm
      subst hrest
      simp

/-- CScriptCompressor::nSpecialScripts, from src/src/compressor.h line 38:
there are 6 special scripts. -/
def nSpecialScripts : Nat := 6

/-- Modelled from the spec: CScriptCompressor::IsToKeyID (spec 4.2 step 1;
only its declaration is in src/src/compressor.h): the script is exactly the
fixed 5-opcode pay-to-public-key-hash template wrapping a 20-byte hash. -/
def IsToKeyID (script : List Nat) : Bool :=
  script.length == 25 && script[0]? == some OP_DUP && script[1]? == some OP_HASH160 &&
    script[2]? == some 20 && script[23]? == some OP_EQUALVERIFY &&
    script[24]? == some OP_CHECKSIG

/-- Modelled from the spec: CScriptCompressor::IsToScriptID (spec 4.2 step 2):
the script is exactly the fixed 3-opcode pay-to-script-hash template wrapping
a 20-byte hash. -/
def IsToScriptID (script : List Nat) : Bool :=
  script.length == 23 && script[0]? == some OP_HASH160 && script[1]? == some 20 &&
    script[22]? == some OP_EQUAL

/-- Modelled from the spec: CScriptCompressor::IsToPubKey (spec 4.2 step 3):
the script is exactly `<key> CHECKSIG` where the key is 33 bytes starting
with 0x02/0x03 or 65 bytes starting with 0x04, and the key passes the
external cryptographic validity check `isValid`.  Returns the key. -/
def IsToPubKey (isValid : List Nat → Bool) (script : List Nat) : Option (List Nat) :=
  if script.length == 35 && script[0]? == some 33 && script[34]? == some OP_CHECKSIG &&
      (script[1]? == some 2 || script[1]? == some 3) then
    (if isValid ((script.drop 1).take 33) then some ((script.drop 1).take 33) else none)
  else if script.length == 67 && script[0]? == some 65 && script[66]? == some OP_CHECKSIG &&
      script[1]? == some 4 then
    (if isValid ((script.drop 1).take 65) then some ((script.drop 1).take 65) else none)
  else none

/-- Modelled from the spec: CScriptCompressor::Compress (spec 4.2 detection
order): tag 0 for the key-hash shape with the 20-byte hash as payload, tag 1
for the script-hash shape, tag 2/3 for an already-compressed key (tag is the
key's first byte), tag 4/5 for an uncompressed key with the parity of the
last byte of the key folded into the tag; `none` when no shape matches. -/
def Compress (isValid : List Nat → Bool) (script : List Nat) : Option (List Nat) :=
  if IsToKeyID script then some (0 :: (script.drop 3).take 20)
  else if IsToScriptID script then some (1 :: (script.drop 2).take 20)
  else
    match IsToPubKey isValid script with
    | some key =>
      if key[0]? == some 2 || key[0]? == some 3 then
        some (key.headD 0 :: (key.drop 1).take 32)
      else if key[0]? == some 4 then
        some ((4 + key.getLastD 0 % 2) :: (key.drop 1).take 32)
      else none
    | none => none

/-- Modelled from the spec: CScriptCompressor::GetSpecialSize (spec 4.2):
tags 0 and 1 carry 20 payload bytes, tags 2 to 5 carry 32. -/
def GetSpecialSize (nSize : Nat) : Nat :=
  if nSize = 0 ∨ nSize = 1 then 20
  else if 2 ≤ nSize ∧ nSize ≤ 5 then 32
  else 0

/-- Modelled from the spec: CScriptCompressor::Decompress (spec 4.2 decode
protocol): rebuild the template script for tags 0/1, a compressed-key
checksig script for tags 2/3, and for tags 4/5 recover the 65-byte key via
the external EC-decompression primitive `ec` applied to the 32-byte
X-coordinate and the parity recorded in the tag (tag 5 means odd). -/
def Decompress (ec : List Nat → Bool → List Nat) (nSize : Nat) (payload : List Nat) :
    List Nat :=
  if nSize = 0 then OP_DUP :: OP_HASH160 :: 20 :: (payload ++ [OP_EQUALVERIFY, OP_CHECKSIG])
  else if nSize = 1 then OP_HASH160 :: 20 :: (payload ++ [OP_EQUAL])
  else if nSize = 2 ∨ nSize = 3 then 33 :: nSize :: (payload ++ [OP_CHECKSIG])
  else if nSize = 4 ∨ nSize = 5 then 65 :: (ec payload (nSize == 5) ++ [OP_CHECKSIG])
  else []

/-- CScriptCompressor::Serialize, from src/src/compressor.h lines 61-70: emit
the special compressed form when `Compress` succeeds, otherwise a varint of
the script length shifted by `nSpecialScripts` followed by the raw bytes. -/
def ScriptSerialize (isValid : List Nat → Bool) (script : List Nat) : List Nat :=
  match Compress isValid script with
  | some compr => compr
  | none => writeVarInt (script.length + nSpecialScripts) ++ script

/-- CScriptCompressor::Unserialize, from src/src/compressor.h lines 72-89 and
103-107, for a compressor bound to a script currently holding `script0`:
read the varint tag; below `nSpecialScripts` read the fixed-size payload and
`Decompress` it; otherwise subtract `nSpecialScripts` to get the raw length,
and either append the OP_FALSE OP_RETURN placeholder and skip the declared
length (when it exceeds `maxSize`, the configured maximum script length) or
read that many bytes verbatim as the new script.  Returns the script bound
after the call and the unread remainder, `none` on stream exhaustion. -/
def ScriptUnserialize (maxSize : Nat) (ec : List Nat → Bool → List Nat)
    (script0 : List Nat) (input : List Nat) : Option (List Nat × List Nat) :=
  match readVarInt input with
  | none => none
  | some (nSize, rest) =>
    if nSize < nSpecialScripts then
      if rest.length < GetSpecialSize nSize then none
      else some (Decompress ec nSize (rest.take (GetSpecialSize nSize)),
                 rest.drop (GetSpecialSize nSize))
    else
      if maxSize < nSize - nSpecialScripts then
        if rest.length < nSize - nSpecialScripts then none
        else some (script0 ++ [OP_FALSE, OP_RETURN], rest.drop (nSize - nSpecialScripts))
      else
        if rest.length < nSize - nSpecialScripts then none
        else some (rest.take (nSize - nSpecialScripts), rest.drop (nSize - nSpecialScripts))

/-- A transaction output: an amount and a locking script, as in
primitives/transaction.h (declared outside src; spec section 3). -/
structure CTxOut where
  nValue : Nat
  scriptPubKey : List Nat
deriving Repr, DecidableEq

/-- CTxOutCompressor::SerializationOp (write direction), from
src/src/compressor.h lines 124-136: a varint of the compressed amount
followed by the compressed script. -/
def TxOutSerialize (isValid : List Nat → Bool) (t : CTxOut) : List Nat :=
  writeVarInt (CompressAmount t.nValue) ++ ScriptSerialize isValid t.scriptPubKey

/-- CTxOutCompressor::SerializationOp (read direction), from
src/src/compressor.h lines 124-136: read a varint, decompress it into
`nValue`, then decode the script (into a freshly null-initialised output, so
the bound script starts empty). -/
def TxOutUnserialize (maxSize : Nat) (ec : List Nat → Bool → List Nat)
    (input : List Nat) : Option (CTxOut × List Nat) :=
  match readVarInt input with
  | none => none
  | some (v, rest) =>
    match ScriptUnserialize maxSize ec [] rest with
    | none => none
    | some (scr, rest2) => some (⟨DecompressAmount v, scr⟩, rest2)

/-- Unfolding lemma for `ScriptUnserialize` once the varint tag is known. -/
theorem ScriptUnserialize_eq (maxSize : Nat) (ec : List Nat → Bool → List Nat)
    (script0 input : List Nat) (nSize : Nat) (rest : List Nat)
    (hread : readVarInt input = some (nSize, rest)) :
    ScriptUnserialize maxSize ec script0 input =
      if nSize < nSpecialScripts then
        if rest.length < GetSpecialSize nSize then none
        else some (Decompress ec nSize (rest.take (GetSpecialSize nSize)),
                   rest.drop (GetSpecialSize nSize))
      else
        if maxSize < nSize - nSpecialScripts then
          if rest.length < nSize - nSpecialScripts then none
          else some (script0 ++ [OP_FALSE, OP_RETURN], rest.drop (nSize - nSpecialScripts))
        else
          if rest.length < nSize - nSpecialScripts then none
          else some (rest.take (nSize - nSpecialScripts),
                     rest.drop (nSize - nSpecialScripts)) := by
  unfold ScriptUnserialize
  rw [hread]

/-- C2: On a decode whose varint tag is at least 6 and whose implied raw
length `tag - 6` exceeds the configured maximum script length, the decoder
produces the fixed 2-byte OP_FALSE OP_RETURN placeholder (independent of the
declared length, so the declared bytes are never materialised) and advances
the byte cursor past exactly the declared length. -/
theorem oversized_script_placeholder (maxSize : Nat) (ec : List Nat → Bool → List Nat)
    (input : List Nat) (tag : Nat) (rest : List Nat)
    (hread : readVarInt input = some (tag, rest)) (htag : 6 ≤ tag)
    (hover : maxSize < tag - 6) (hlen : tag - 6 ≤ rest.length) :
    ScriptUnserialize maxSize ec [] input
        = some ([OP_FALSE, OP_RETURN], rest.drop (tag - 6)) ∧
    ([OP_FALSE, OP_RETURN] : List Nat).length = 2 ∧
    rest.length - (rest.drop (tag - 6)).length = tag - 6 := by
  refine ⟨?_, rfl, ?_⟩
  · rw [ScriptUnserialize_eq maxSize ec [] input tag rest hread]
    rw [if_neg (by unfold nSpecialScripts; omega)]
    rw [if_pos (by unfold nSpecialScripts; omega)]
    rw [if_neg (by unfold nSpecialScripts; omega)]
    simp [nSpecialScripts]
  · simp only [List.length_drop]
    omega

/-- Witness for C2: tag 7 (raw length 1) with maximum 0; input `[7, 9]`. -/
theorem oversized_script_placeholder_witness :
    readVarInt [7, 9] = some (7, [9]) ∧
    ScriptUnserialize 0 (fun _ _ => []) [] [7, 9]
        = some ([OP_FALSE, OP_RETURN], List.drop (7 - 6) [9]) :=
  ⟨by decide,
   (oversized_script_placeholder 0 (fun _ _ => []) [7, 9] 7 [9]
      (by decide) (by decide) (by decide) (by decide)).1⟩

/-- C9: On the oversized-raw fallback branch the placeholder opcodes are
appended to whatever the bound script already contains, so the result is the
prior contents followed by the 2 placeholder bytes, and equals exactly the
2-byte placeholder precisely when the bound script was empty before. -/
theorem oversized_script_appends (maxSize : Nat) (ec : List Nat → Bool → List Nat)
    (script0 input : List Nat) (tag : Nat) (rest : List Nat)
    (hread : readVarInt input = some (tag, rest)) (htag : 6 ≤ tag)
    (hover : maxSize < tag - 6) (hlen : tag - 6 ≤ rest.length) :
    ScriptUnserialize maxSize ec script0 input
        = some (script0 ++ [OP_FALSE, OP_RETURN], rest.drop (tag - 6)) ∧
    (script0 ++ [OP_FALSE, OP_RETURN] = [OP_FALSE, OP_RETURN] ↔ script0 = []) := by
  constructor
  · rw [ScriptUnserialize_eq maxSize ec script0 input tag rest hread]
    rw [if_neg (by unfold nSpecialScripts; omega)]
    rw [if_pos (by unfold nSpecialScripts; omega)]
    rw [if_neg (by unfold nSpecialScripts; omega)]
    simp [nSpecialScripts]
  · constructor
    · intro h
      have hl := congrArg List.length h
      simp at hl
      exact hl
    · intro h
      subst h
      simp

/-- Witness for C9: a bound script already holding one byte keeps it in
front of the placeholder. -/
theorem oversized_script_appends_witness :
    readVarInt [7, 9] = some (7, [9]) ∧
    ScriptUnserialize 0 (fun _ _ => []) [81] [7, 9]
        = some ([81] ++ [OP_FALSE, OP_RETURN], List.drop (7 - 6) [9]) :=
  ⟨by decide,
   (oversized_script_appends 0 (fun _ _ => []) [81] [7, 9] 7 [9]
      (by decide) (by decide) (by decide) (by decide)).1⟩

/-- C4: Every successful decode leaves the cursor exactly after the encoded
script field: the consumed byte count equals the size of the varint tag plus
the declared payload length (the fixed special size below tag 6, `tag - 6`
otherwise), on the special, raw and oversized-fallback branches alike. -/
theorem unserialize_cursor_advance (maxSize : Nat) (ec : List Nat → Bool → List Nat)
    (script0 input out rest : List Nat)
    (h : ScriptUnserialize maxSize ec script0 input = some (out, rest)) :
    ∃ tag mid, readVarInt input = some (tag, mid) ∧
      mid.length < input.length ∧
      mid.length = (if tag < 6 then GetSpecialSize tag else tag - 6) + rest.length ∧
      input.length - rest.length
        = (input.length - mid.length) + (if tag < 6 then GetSpecialSize tag else tag - 6) := by
  cases hr : readVarInt input with
  | none =>
    rw [ScriptUnserialize] at h
    rw [hr] at h
    exact absurd h (by simp)
  | some p =>
    obtain ⟨tag, mid⟩ := p
    have hlen := readVarIntAux_length input 0 tag mid hr
    rw [ScriptUnserialize_eq maxSize ec script0 input tag mid hr] at h
    refine ⟨tag, mid, rfl, hlen, ?_⟩
    by_cases h6 : tag < nSpecialScripts
    · rw [if_pos h6] at h
      by_cases hx : mid.length < GetSpecialSize tag
      · rw [if_pos hx] at h
        exact absurd h (by simp)
      · rw [if_neg hx] at h
        have hrest : rest = mid.drop (GetSpecialSize tag) := by
          have := congrArg (fun o => Option.map Prod.snd o) h
          simpa using this.symm
        subst hrest
        have h6' : tag < 6 := by unfold nSpecialScripts at h6; omega
        rw [if_pos h6']
        simp only [List.length_drop]
        omega
    · rw [if_neg h6] at h
      have h6' : ¬ tag < 6 := by unfold nSpecialScripts at h6; omega
      by_cases hov : maxSize < tag - nSpecialScripts
      · rw [if_pos hov] at h
        by_cases hx : mid.length < tag - nSpecialScripts
        · rw [if_pos hx] at h
          exact absurd h (by simp)
        · rw [if_neg hx] at h
          have hrest : rest = mid.drop (tag - nSpecialScripts) := by
            have := congrArg (fun o => Option.map Prod.snd o) h
            simpa using this.symm
          subst hrest
          rw [if_neg h6']
          unfold nSpecialScripts at hx ⊢
          simp only [List.length_drop]
          omega
      · rw [if_neg hov] at h
        by_cases hx : mid.length < tag - nSpecialScripts
        · rw [if_pos hx] at h
          exact absurd h (by simp)
        · rw [if_neg hx] at h
          have hrest : rest = mid.drop (tag - nSpecialScripts) := by
            have := congrArg (fun o => Option.map Prod.snd o) h
            simpa using this.symm
          subst hrest
          rw [if_neg h6']
          unfold nSpecialScripts at hx ⊢
          simp only [List.length_drop]
          omega

/-- Witness for C4: decoding the raw empty script (tag 6) from `[6]`. -/
theorem unserialize_cursor_advance_witness :
    ScriptUnserialize 0 (fun _ _ => []) [] [6] = some ([], []) ∧
    ∃ tag mid, readVarInt [6] = some (tag, mid) ∧
      mid.length < ([6] : List Nat).length ∧
      mid.length = (if tag < 6 then GetSpecialSize tag else tag - 6) + ([] : List Nat).length ∧
      ([6] : List Nat).length - ([] : List Nat).length
        = (([6] : List Nat).length - mid.length)
          + (if tag < 6 then GetSpecialSize tag else tag - 6) :=
  ⟨by decide,
   unserialize_cursor_advance 0 (fun _ _ => []) [] [6] [] [] (by decide)⟩

/-- C6: GetSpecialSize maps tags 0 and 1 to 20 bytes and tags 2 to 5 to 32
bytes, and a decode whose tag is below 6 consumes exactly
`GetSpecialSize tag` payload bytes from the stream after the varint. -/
theorem special_size_and_read (maxSize : Nat) (ec : List Nat → Bool → List Nat)
    (script0 input : List Nat) (tag : Nat) (rest : List Nat)
    (hread : readVarInt input = some (tag, rest)) (htag : tag < 6)
    (hlen : GetSpecialSize tag ≤ rest.length) :
    GetSpecialSize 0 = 20 ∧ GetSpecialSize 1 = 20 ∧ GetSpecialSize 2 = 32 ∧
    GetSpecialSize 3 = 32 ∧ GetSpecialSize 4 = 32 ∧ GetSpecialSize 5 = 32 ∧
    ScriptUnserialize maxSize ec script0 input
        = some (Decompress ec tag (rest.take (GetSpecialSize tag)),
                rest.drop (GetSpecialSize tag)) ∧
    rest.length - (rest.drop (GetSpecialSize tag)).length = GetSpecialSize tag := by
  refine ⟨rfl, rfl, rfl, rfl, rfl, rfl, ?_, ?_⟩
  · rw [ScriptUnserialize_eq maxSize ec script0 input tag rest hread]
    rw [if_pos (by unfold nSpecialScripts; omega)]
    rw [if_neg (by omega)]
  · simp only [List.length_drop]
    omega

/-- Witness for C6: decoding tag 0 with a 20-byte payload of zeros. -/
theorem special_size_and_read_witness :
    ScriptUnserialize 0 (fun _ _ => []) [] (0 :: List.replicate 20 0)
        = some (Decompress (fun _ _ => []) 0 (List.take (GetSpecialSize 0) (List.replicate 20 0)),
                List.drop (GetSpecialSize 0) (List.replicate 20 0)) :=
  (special_size_and_read 0 (fun _ _ => []) [] (0 :: List.replicate 20 0) 0
      (List.replicate 20 0) (by decide) (by decide) (by decide)).2.2.2.2.2.2.1

/-- Decoding a raw (tag = length + 6) encoding that respects the maximum
script length yields the script verbatim and leaves the rest untouched,
whatever the bound script held before. -/
theorem ScriptUnserialize_raw (maxSize : Nat) (ec : List Nat → Bool → List Nat)
    (script0 script extra : List Nat) (hlen : script.length ≤ maxSize) :
    ScriptUnserialize maxSize ec script0
        (writeVarInt (script.length + nSpecialScripts) ++ (script ++ extra))
      = some (script, extra) := by
  rw [ScriptUnserialize_eq maxSize ec script0 _ (script.length + nSpecialScripts)
        (script ++ extra) (readVarInt_writeVarInt _ _)]
  rw [if_neg (by omega)]
  have harith : script.length + nSpecialScripts - nSpecialScripts = script.length := by omega
  rw [harith]
  rw [if_neg (by omega)]
  rw [if_neg (by simp)]
  simp

/-- Compressed special forms always start with a tag byte below 6. -/
theorem Compress_head_lt (isValid : List Nat → Bool) (script out : List Nat)
    (h : Compress isValid script = some out) :
    ∃ t p, out = t :: p ∧ t < 6 := by
  unfold Compress at h
  by_cases h0 : IsToKeyID script
  · rw [if_pos h0] at h
    exact ⟨0, _, by simpa using h.symm, by omega⟩
  · rw [if_neg h0] at h
    by_cases h1 : IsToScriptID script
    · rw [if_pos h1] at h
      exact ⟨1, _, by simpa using h.symm, by omega⟩
    · rw [if_neg h1] at h
      cases hk : IsToPubKey isValid script with
      | none => rw [hk] at h; exact absurd h (by simp)
      | some key =>
        rw [hk] at h
        dsimp only at h
        by_cases h23 : (key[0]? == some 2 || key[0]? == some 3) = true
        · rw [if_pos h23] at h
          have hkey : key.headD 0 = 2 ∨ key.headD 0 = 3 := by
            cases key with
            | nil => simp at h23
            | cons a t =>
              simp at h23
              simpa using h23
          exact ⟨key.headD 0, _, by simpa using h.symm, by omega⟩
        · rw [if_neg h23] at h
          by_cases h4 : (key[0]? == some 4) = true
          · rw [if_pos h4] at h
            refine ⟨4 + key.getLastD 0 % 2, _, by simpa using h.symm, by omega⟩
          · rw [if_neg h4] at h
            exact absurd h (by simp)

/-- C5: A script matching no special shape is serialized as a varint tag
equal to its byte length plus 6 followed by the verbatim script bytes, and
decoding that encoding (when the length does not exceed the maximum)
reproduces the script byte-for-byte with the cursor exactly after it. -/
theorem raw_script_roundtrip (isValid : List Nat → Bool) (maxSize : Nat)
    (ec : List Nat → Bool → List Nat) (script extra : List Nat)
    (hraw : Compress isValid script = none) (hlen : script.length ≤ maxSize) :
    ScriptSerialize isValid script = writeVarInt (script.length + 6) ++ script ∧
    ScriptUnserialize maxSize ec [] (ScriptSerialize isValid script ++ extra)
      = some (script, extra) := by
  have hser : ScriptSerialize isValid script
      = writeVarInt (script.length + nSpecialScripts) ++ script := by
    unfold ScriptSerialize
    rw [hraw]
  constructor
  · rw [hser]; rfl
  · rw [hser, List.append_assoc]
    exact ScriptUnserialize_raw maxSize ec [] script extra hlen

/-- Witness for C5: the one-byte script `[81]` (OP_1) matches no special
shape and round-trips through the raw path with tag 7. -/
theorem raw_script_roundtrip_witness :
    Compress (fun _ => true) [81] = none ∧
    ScriptSerialize (fun _ => true) [81] = writeVarInt (1 + 6) ++ [81] ∧
    ScriptUnserialize 1 (fun _ _ => []) [] (ScriptSerialize (fun _ => true) [81] ++ [9])
      = some ([81], [9]) :=
  ⟨by decide,
   (raw_script_roundtrip (fun _ => true) 1 (fun _ _ => []) [81] [9]
      (by decide) (by decide)).1,
   (raw_script_roundtrip (fun _ => true) 1 (fun _ _ => []) [81] [9]
      (by decide) (by decide)).2⟩

/-- C10: Serialize emits either a special compressed form, whose tag is in
0..5, or a raw form whose tag is the script length plus 6 and hence at least
6; on the wire the two cases are disjoint for every script. -/
theorem serialize_tag_disjoint (isValid : List Nat → Bool) (script extra : List Nat) :
    ∃ tag mid, readVarInt (ScriptSerialize isValid script ++ extra) = some (tag, mid) ∧
      (match Compress isValid script with
       | some _ => tag < 6
       | none => tag = script.length + 6 ∧ 6 ≤ tag) := by
  cases hc : Compress isValid script with
  | some out =>
    obtain ⟨t, p, hout, ht⟩ := Compress_head_lt isValid script out hc
    have hser : ScriptSerialize isValid script = t :: p := by
      unfold ScriptSerialize
      rw [hc, hout]
    refine ⟨t, p ++ extra, ?_, by simp [hc, ht]⟩
    rw [hser]
    exact readVarInt_single t (p ++ extra) (by omega)
  | none =>
    have hser : ScriptSerialize isValid script
        = writeVarInt (script.length + nSpecialScripts) ++ script := by
      unfold ScriptSerialize
      rw [hc]
    refine ⟨script.length + nSpecialScripts, script ++ extra, ?_, ?_⟩
    · rw [hser, List.append_assoc]
      exact readVarInt_writeVarInt _ _
    · simp [hc, nSpecialScripts]

/-- C7: For a pay-to-pubkey script of an uncompressed 65-byte key starting
with 0x04, the encoder picks tag 4 when the last byte of the key is even and
tag 5 when it is odd, with the 32-byte X-coordinate as payload; decoding the
encoding reconstructs the original script (hence the original 65-byte key)
exactly, via the EC-decompression primitive `ec` (assumed, as the spec does,
to invert the dropped-Y representation: hypothesis `hec`). -/
theorem pubkey_parity_roundtrip (isValid : List Nat → Bool) (ec : List Nat → Bool → List Nat)
    (key : List Nat) (maxSize : Nat) (extra : List Nat)
    (hlen : key.length = 65) (hhead : key[0]? = some 4) (hvalid : isValid key = true)
    (hec : ec ((key.drop 1).take 32) (key.getLastD 0 % 2 == 1) = key) :
    (key.getLastD 0 % 2 = 0 →
      Compress isValid (65 :: (key ++ [OP_CHECKSIG]))
        = some (4 :: (key.drop 1).take 32)) ∧
    (key.getLastD 0 % 2 = 1 →
      Compress isValid (65 :: (key ++ [OP_CHECKSIG]))
        = some (5 :: (key.drop 1).take 32)) ∧
    ScriptUnserialize maxSize ec []
        (ScriptSerialize isValid (65 :: (key ++ [OP_CHECKSIG])) ++ extra)
      = some (65 :: (key ++ [OP_CHECKSIG]), extra) := by
  have hform : (65 :: (key ++ [OP_CHECKSIG])) = ([65] ++ key) ++ [OP_CHECKSIG] := by simp
  have hslen : (65 :: (key ++ [OP_CHECKSIG])).length = 67 := by simp [hlen]
  have hidx0 : (65 :: (key ++ [OP_CHECKSIG]))[0]? = some 65 := by simp
  have hidx1 : (65 :: (key ++ [OP_CHECKSIG]))[1]? = some 4 := by
    rw [hform, List.getElem?_append_left (by simp [hlen]),
        List.getElem?_append_right (by simp)]
    simpa using hhead
  have hidx66 : (65 :: (key ++ [OP_CHECKSIG]))[66]? = some OP_CHECKSIG := by
    rw [hform, List.getElem?_append_right (by simp [hlen])]
    simp [hlen]
  have hdrop : (65 :: (key ++ [OP_CHECKSIG])).drop 1 = key ++ [OP_CHECKSIG] := rfl
  have htake : (key ++ [OP_CHECKSIG]).take 65 = key := by
    rw [List.take_left']
    exact hlen
  have hkid : IsToKeyID (65 :: (key ++ [OP_CHECKSIG])) = false := by
    unfold IsToKeyID
    rw [hslen]
    simp
  have hsid : IsToScriptID (65 :: (key ++ [OP_CHECKSIG])) = false := by
    unfold IsToScriptID
    rw [hslen]
    simp
  have hpub : IsToPubKey isValid (65 :: (key ++ [OP_CHECKSIG])) = some key := by
    unfold IsToPubKey
    rw [hslen]
    rw [if_neg (by simp)]
    rw [if_pos (by simp [hidx0, hidx1, hidx66])]
    rw [hdrop, htake, hvalid]
    simp
  have hcomp : Compress isValid (65 :: (key ++ [OP_CHECKSIG]))
      = some ((4 + key.getLastD 0 % 2) :: (key.drop 1).take 32) := by
    unfold Compress
    rw [hkid, hsid, hpub]
    simp [hhead]
  have hpay : ((key.drop 1).take 32).length = 32 := by simp [hlen]
  have hpaytake : (((key.drop 1).take 32) ++ extra).take 32 = (key.drop 1).take 32 := by
    rw [List.take_left']
    exact hpay
  have hpaydrop : (((key.drop 1).take 32) ++ extra).drop 32 = extra := by
    rw [List.drop_left']
    exact hpay
  have hpar : key.getLastD 0 % 2 = 0 ∨ key.getLastD 0 % 2 = 1 := Nat.mod_two_eq_zero_or_one _
  refine ⟨?_, ?_, ?_⟩
  · intro hp0
    rw [hcomp, hp0]
  · intro hp1
    rw [hcomp, hp1]
  · have hser : ScriptSerialize isValid (65 :: (key ++ [OP_CHECKSIG]))
        = (4 + key.getLastD 0 % 2) :: (key.drop 1).take 32 := by
      unfold ScriptSerialize
      rw [hcomp]
    rw [hser]
    cases hpar with
    | inl hp0 =>
      rw [hp0] at hec ⊢
      have hread : readVarInt ((4 :: (key.drop 1).take 32) ++ extra)
          = some (4, (key.drop 1).take 32 ++ extra) := by
        have := readVarInt_single 4 ((key.drop 1).take 32 ++ extra) (by omega)
        simpa using this
      rw [show (4 + 0 : Nat) = 4 from rfl]
      rw [ScriptUnserialize_eq maxSize ec [] _ 4 ((key.drop 1).take 32 ++ extra) hread]
      rw [if_pos (by unfold nSpecialScripts; omega)]
      have hgs : GetSpecialSize 4 = 32 := rfl
      rw [hgs]
      rw [if_neg (by rw [List.length_append, hpay]; omega)]
      rw [hpaytake, hpaydrop]
      unfold Decompress
      rw [if_neg (by omega), if_neg (by omega), if_neg (by omega), if_pos (by omega)]
      have hecz : ec ((key.drop 1).take 32) false = key := by
        simpa using hec
      rw [show ((4 : Nat) == 5) = false from rfl, hecz]
    | inr hp1 =>
      rw [hp1] at hec ⊢
      have hread : readVarInt ((5 :: (key.drop 1).take 32) ++ extra)
          = some (5, (key.drop 1).take 32 ++ extra) := by
        have := readVarInt_single 5 ((key.drop 1).take 32 ++ extra) (by omega)
        simpa using this
      rw [show (4 + 1 : Nat) = 5 from rfl]
      rw [ScriptUnserialize_eq maxSize ec [] _ 5 ((key.drop 1).take 32 ++ extra) hread]
      rw [if_pos (by unfold nSpecialScripts; omega)]
      have hgs : GetSpecialSize 5 = 32 := rfl
      rw [hgs]
      rw [if_neg (by rw [List.length_append, hpay]; omega)]
      rw [hpaytake, hpaydrop]
      unfold Decompress
      rw [if_neg (by omega), if_neg (by omega), if_neg (by omega), if_pos (by omega)]
      have heco : ec ((key.drop 1).take 32) true = key := by
        simpa using hec
      rw [show ((5 : Nat) == 5) = true from rfl, heco]

/-- Witness for C7: a concrete uncompressed key with even last byte, and an
EC primitive that returns it. -/
theorem pubkey_parity_roundtrip_witness :
    ((4 :: (List.replicate 63 0 ++ [2]) : List Nat).getLastD 0) % 2 = 0 ∧
    Compress (fun _ => true) (65 :: ((4 :: (List.replicate 63 0 ++ [2])) ++ [OP_CHECKSIG]))
      = some (4 :: ((4 :: (List.replicate 63 0 ++ [2])).drop 1).take 32) ∧
    ScriptUnserialize 0 (fun _ _ => 4 :: (List.replicate 63 0 ++ [2])) []
        (ScriptSerialize (fun _ => true)
            (65 :: ((4 :: (List.replicate 63 0 ++ [2])) ++ [OP_CHECKSIG])) ++ [7])
      = some (65 :: ((4 :: (List.replicate 63 0 ++ [2])) ++ [OP_CHECKSIG]), [7]) :=
  ⟨by decide,
   (pubkey_parity_roundtrip (fun _ => true) (fun _ _ => 4 :: (List.replicate 63 0 ++ [2]))
      (4 :: (List.replicate 63 0 ++ [2])) 0 [7]
      (by decide) (by decide) rfl rfl).1 (by decide),
   (pubkey_parity_roundtrip (fun _ => true) (fun _ _ => 4 :: (List.replicate 63 0 ++ [2]))
      (4 :: (List.replicate 63 0 ++ [2])) 0 [7]
      (by decide) (by decide) rfl rfl).2.2⟩

/-- C8: CTxOutCompressor writes the varint of the compressed amount first and
the compressed script second, and decodes in the same order, setting nValue
to DecompressAmount of the read varint before decoding the script: the
round-trip through that byte layout reproduces the output exactly (stated
for raw-path scripts within the maximum length). -/
theorem txout_order_roundtrip (isValid : List Nat → Bool) (maxSize : Nat)
    (ec : List Nat → Bool → List Nat) (t : CTxOut) (extra : List Nat)
    (hraw : Compress isValid t.scriptPubKey = none)
    (hlen : t.scriptPubKey.length ≤ maxSize) :
    TxOutSerialize isValid t
      = writeVarInt (CompressAmount t.nValue) ++ ScriptSerialize isValid t.scriptPubKey ∧
    TxOutUnserialize maxSize ec (TxOutSerialize isValid t ++ extra) = some (t, extra) ∧
    DecompressAmount (CompressAmount t.nValue) = t.nValue := by
  refine ⟨rfl, ?_, DecompressAmount_CompressAmount t.nValue⟩
  unfold TxOutUnserialize TxOutSerialize
  rw [List.append_assoc, readVarInt_writeVarInt]
  have hser : ScriptSerialize isValid t.scriptPubKey
      = writeVarInt (t.scriptPubKey.length + nSpecialScripts) ++ t.scriptPubKey := by
    unfold ScriptSerialize
    rw [hraw]
  rw [hser, List.append_assoc]
  dsimp only
  rw [ScriptUnserialize_raw maxSize ec [] t.scriptPubKey extra hlen]
  dsimp only
  rw [DecompressAmount_CompressAmount]

/-- Witness for C8: the output (5000000000, [81]) round-trips with one byte
of trailing stream left over. -/
theorem txout_order_roundtrip_witness :
    TxOutUnserialize 1 (fun _ _ => [])
        (TxOutSerialize (fun _ => true) ⟨5000000000, [81]⟩ ++ [9])
      = some (⟨5000000000, [81]⟩, [9]) :=
  (txout_order_roundtrip (fun _ => true) 1 (fun _ _ => []) ⟨5000000000, [81]⟩ [9]
      (by decide) (by decide)).2.1

/-- Modelled from the spec: the closed-form statement of the CompressAmount
formula exactly as claim C3 words it: `e` is the number of stripped trailing
decimal zeros capped at 9 (the greatest `k ≤ 9` such that `10 ^ k` divides
the amount), `d` the last decimal digit of the stripped value, `n` the
stripped value with that digit removed; for `e = 9`, `n` is the value after
stripping exactly 9 zeros.  Stated separately from `CompressAmount` (which
follows the spec's stripping loop) so the two can be compared. -/
def compressAmountFormula (a : Nat) : Nat :=
  if a = 0 then 0
  else
    if Nat.findGreatest (fun k => a % 10 ^ k = 0) 9 < 9 then
      1 + ((a / 10 ^ Nat.findGreatest (fun k => a % 10 ^ k = 0) 9) / 10 * 9
        + ((a / 10 ^ Nat.findGreatest (fun k => a % 10 ^ k = 0) 9) % 10 - 1)) * 10
        + Nat.findGreatest (fun k => a % 10 ^ k = 0) 9
    else
      1 + (a / 10 ^ 9 - 1) * 10 + 9

/-- The stripping loop's exponent is exactly the greatest `k ≤ 9` with
`10 ^ k` dividing the amount. -/
theorem findGreatest_eq_stripped (a x e : Nat) (_hx : x ≠ 0) (hxe : x * 10 ^ e = a)
    (he : e ≤ 9) (hnd : e < 9 → x % 10 ≠ 0) :
    Nat.findGreatest (fun k => a % 10 ^ k = 0) 9 = e := by
  rw [Nat.findGreatest_eq_iff]
  refine ⟨he, fun _ => ?_, fun n hn hn9 hPn => ?_⟩
  · rw [← hxe]
    exact Nat.mul_mod_left x (10 ^ e)
  · have hdvd : (10 : Nat) ^ n ∣ a := Nat.dvd_of_mod_eq_zero hPn
    rw [← hxe] at hdvd
    have hn' : n = e + (n - e - 1 + 1) := by omega
    rw [hn', pow_add, mul_comm x (10 ^ e)] at hdvd
    have h2 : (10 : Nat) ^ (n - e - 1 + 1) ∣ x :=
      (Nat.mul_dvd_mul_iff_left (pow_pos (by norm_num) e)).mp hdvd
    have h10 : (10 : Nat) ∣ x := dvd_trans (dvd_pow_self 10 (Nat.succ_ne_zero _)) h2
    exact hnd (by omega) (Nat.mod_eq_zero_of_dvd h10)

/-- C3: CompressAmount computes exactly the claimed formula: 0 maps to 0,
and with `e` the number of stripped trailing decimal zeros capped at 9 the
result follows the `e < 9` digit re-encoding or the `e = 9` branch; in
particular 5000000000 strips to (5, 9), taking the `e = 9` branch, giving
`1 + (5-1)*10 + 9`. -/
theorem compressAmount_matches_formula (a : Nat) :
    CompressAmount a = compressAmountFormula a ∧
    stripZeros 9 5000000000 0 = (5, 9) ∧
    CompressAmount 5000000000 = 1 + (5 - 1) * 10 + 9 := by
  refine ⟨?_, by decide, by decide⟩
  by_cases ha : a = 0
  · subst ha; rfl
  · obtain ⟨hx0, hxe, -, he2, hnd⟩ := stripZeros_spec 9 a 0 ha (by omega) (by omega)
    rw [Nat.sub_zero] at hxe
    have hfg := findGreatest_eq_stripped a (stripZeros 9 a 0).1 (stripZeros 9 a 0).2
      hx0 hxe he2 hnd
    have hdiv : a / 10 ^ (stripZeros 9 a 0).2 = (stripZeros 9 a 0).1 :=
      Nat.div_eq_of_eq_mul_left (pow_pos (by norm_num) _) hxe.symm
    unfold CompressAmount compressAmountFormula
    rw [if_neg ha, if_neg ha, hfg, hdiv]
    by_cases hel : (stripZeros 9 a 0).2 < 9
    · rw [if_pos hel, if_pos hel]
    · rw [if_neg hel, if_neg hel]
      have he9 : (stripZeros 9 a 0).2 = 9 := by omega
      have h9 : a / 10 ^ 9 = (stripZeros 9 a 0).1 := by
        calc a / 10 ^ 9 = a / 10 ^ (stripZeros 9 a 0).2 := by rw [he9]
          _ = (stripZeros 9 a 0).1 := hdiv
      rw [h9]

end MVC
